import Mathlib

/-!
Verification of the Ed25519 protocol layer (`src/ed25519.rs`) of the cryptoxide library.

The file `ed25519.rs` is embedded faithfully.  Its collaborators from
`crate::curve25519` (field/group/scalar arithmetic) and `crate::sha2` (the 512-bit
digest) are not part of the sources; following the specification they are treated as
external collaborators: the digest and the Montgomery ladder are universally
quantified parameters, the scalar/group routines are modelled from the spec's
contracts (all documented with `Modelled from the spec:` in their doc comments).
Points of the prime-order subgroup are represented by their discrete logarithm with
respect to the base point, i.e. by canonical residues modulo the group order, which
is the canonical model of the cyclic subgroup the spec describes.

Machine integers are modelled by `Nat`/`Int` with explicit truncation where the
source truncates; byte strings are `List Nat` with every element `< 256`.
-/

set_option maxRecDepth 100000

set_option maxHeartbeats 1600000

namespace Ed25519

/-- Little-endian value of a byte list (index 0 is the least significant byte). -/
def leVal (l : List Nat) : Nat := l.foldr (fun b acc => b + 256 * acc) 0

/-- Canonical little-endian encoding of `v` into `k` bytes. -/
def natToLE : Nat → Nat → List Nat
  | 0, _ => []
  | k+1, v => v % 256 :: natToLE k (v / 256)

/-- Effect of the copy loops `for (dest, src) in dst.iter_mut().zip(src.iter())` of the
source: the first `min |dst| |src|` elements of `dst` are replaced by those of `src`,
the rest of `dst` is kept. -/
def overwrite (dst src : List Nat) : List Nat := src.take dst.length ++ dst.drop src.length

/-- The constant `static L: [u8; 32]` exactly as written in `ed25519.rs`, index 0 first. -/
def L : List Nat :=
  [0x10, 0x00, 0x00, 0x00, 0x00, 0x00, 0x00, 0x00, 0x00, 0x00, 0x00, 0x00, 0x00, 0x00, 0x00, 0x00,
   0x14, 0xde, 0xf9, 0xde, 0xa2, 0xf7, 0x9c, 0xd6, 0x58, 0x12, 0x63, 0x1a, 0x5c, 0xf5, 0xd3, 0xed]

/-- Modelled from the spec: the order of the curve's main subgroup ("Group order (L)"
in the spec glossary), the modulus of the missing `crate::curve25519` scalar arithmetic
(`sc_reduce`, `sc_muladd`): 2^252 + 27742317777372353535851937790883648493. -/
def Lorder : Nat := 2^252 + 27742317777372353535851937790883648493

/-- Model of `((x >> 8) as u8)` for an `i32` value `x`: arithmetic shift right by 8 is
floor division by 256 (`Int` division is Euclidean division, which agrees with floor
division for a positive divisor), and the cast to `u8` keeps the low 8 bits.  All
intermediate values of `check_s_lt_l` lie well inside the `i32` range, so unbounded
`Int` models the `i32` arithmetic exactly. -/
def shrU8 (x : Int) : Nat := ((x / 256) % 256).toNat

/-- Loop body of `check_s_lt_l`: `c` is updated first (with the current `n`), then `n`. -/
def csllStep (si li : Nat) (cn : Nat × Nat) : Nat × Nat :=
  (cn.1 ||| (shrU8 ((si : Int) - (li : Int)) &&& cn.2),
   cn.2 &&& shrU8 (((si ^^^ li : Nat) : Int) - 1))

/-- Translation of `fn check_s_lt_l(s: &[u8]) -> bool`; the loop visits `i = 31, ..., 0`. -/
def check_s_lt_l (s : List Nat) : Bool :=
  let r := ((List.range 32).reverse).foldl
    (fun cn i => csllStep (s.getD i 0) (L.getD i 0) cn) (0, 1)
  r.1 == 0

/-- Modelled from the spec: `sc_reduce` of the missing `crate::curve25519` — "take a
64-byte little-endian integer ... and reduce it modulo the group order L ..., producing
a canonical value in [0, L)".  We return the canonical 32-byte result, which is the part
of the in-place buffer that the `ed25519.rs` code subsequently reads. -/
def sc_reduce (s : List Nat) : List Nat := natToLE 32 (leVal s % Lorder)

/-- Modelled from the spec: `sc_muladd` of the missing `crate::curve25519` — "given
scalars a, b, c (32 bytes each), compute (a·b + c) mod L, canonical 32-byte result". -/
def sc_muladd (a b c : List Nat) : List Nat :=
  natToLE 32 ((leVal a * leVal b + leVal c) % Lorder)

/-- Modelled from the spec: `ge_scalarmult_base` of the missing `crate::curve25519`
computes `scalar·G` for a 32-byte little-endian scalar.  The multiples of the base point
form a cyclic group of order `Lorder`, so the point `n·G` is represented by the residue
`n % Lorder`. -/
def ge_scalarmult_base (s : List Nat) : Nat := leVal s % Lorder

/-- Modelled from the spec: `GeP2::double_scalarmult_vartime(a, A, b) = a·A + b·G` of the
missing `crate::curve25519`, on the same representation of subgroup points. -/
def double_scalarmult_vartime (a : List Nat) (A : Nat) (b : List Nat) : Nat :=
  (leVal a * A + leVal b) % Lorder

/-- Modelled from the spec: the "constant-time equality collaborator" `fixed_time_eq`
"compares two equal-length byte buffers in time independent of where they first differ;
returns a boolean" — functionally, whether the buffers are equal. -/
def fixed_time_eq (a b : List Nat) : Bool := a == b

/-- Modelled from the spec: interface of the point encoding and decoding of the missing
`crate::curve25519` (`GeP3::to_bytes`, `GeP3::from_bytes_negate_vartime`), stated for
points of the prime-order subgroup (represented by residues modulo `Lorder`): an
encoding is 32 bytes; decoding the encoding of a subgroup point succeeds and returns
the point negated ("return the point with X negated"); no subgroup point encodes to the
all-zero string (the all-zero string encodes a point of order four, which is outside the
prime-order subgroup). -/
structure PointCodec where
  toBytes : Nat → List Nat
  fromBytesNegate : List Nat → Option Nat
  toBytes_length : ∀ P, (toBytes P).length = 32
  toBytes_bytes : ∀ P, ∀ b ∈ toBytes P, b < 256
  fromBytes_toBytes : ∀ P, P < Lorder → fromBytesNegate (toBytes P) = some ((Lorder - P) % Lorder)
  toBytes_ne_zero : ∀ P, toBytes P ≠ List.replicate 32 0

/-- Clamping steps shared by `keypair` and `signature`:
`hash_output[0] &= 248; hash_output[31] &= 63; hash_output[31] |= 64`. -/
def clampEd (h : List Nat) : List Nat :=
  (h.set 0 ((h.getD 0 0) &&& 248)).set 31 (((h.getD 31 0) &&& 63) ||| 64)

/-- Translation of `pub fn keypair` (`H` is the external `Sha512` digest over the
concatenation of the `input` calls; `C` the point codec).  The length assertion is
modelled by `keypairChecked`. -/
def keypair (H : List Nat → List Nat) (C : PointCodec) (seed : List Nat) :
    List Nat × List Nat :=
  let secret := clampEd (H seed)
  let a := ge_scalarmult_base (secret.take 32)
  let public_key := C.toBytes a
  let secret := secret.take 32 ++ overwrite (secret.drop 32) public_key
  let secret := overwrite (secret.take 32) seed ++ secret.drop 32
  (secret, public_key)

/-- Translation of `pub fn signature` (secret-key buffer slices `[0..32]`, `[32..64]`
become `take 32` and `(drop 32).take 32`). -/
def signature (H : List Nat → List Nat) (C : PointCodec)
    (message secret_key : List Nat) : List Nat :=
  let seed := secret_key.take 32
  let public_key := (secret_key.drop 32).take 32
  let az := clampEd (H seed)
  let nonce := sc_reduce (H ((az.drop 32).take 32 ++ message))
  let rB := C.toBytes (ge_scalarmult_base nonce)
  let sig := overwrite (List.replicate 32 0) rB ++ overwrite (List.replicate 32 0) public_key
  let hram := sc_reduce (H (sig ++ message))
  sig.take 32 ++ sc_muladd hram (az.take 32) nonce

/-- Translation of `pub fn to_public`. -/
def to_public (C : PointCodec) (extended_secret : List Nat) : List Nat :=
  C.toBytes (ge_scalarmult_base (extended_secret.take 32))

/-- Translation of `pub fn signature_extended`. -/
def signature_extended (H : List Nat → List Nat) (C : PointCodec)
    (message extended_secret : List Nat) : List Nat :=
  let public_key := to_public C extended_secret
  let nonce := sc_reduce (H ((extended_secret.drop 32).take 32 ++ message))
  let rB := C.toBytes (ge_scalarmult_base nonce)
  let sig := overwrite (List.replicate 32 0) rB ++ overwrite (List.replicate 32 0) public_key
  let hram := sc_reduce (H (sig ++ message))
  sig.take 32 ++ sc_muladd hram (extended_secret.take 32) nonce

/-- Translation of `pub fn verify` (the two length assertions are modelled by
`verifyChecked`; the `d |= pk_byte` loop is the fold). -/
def verify (H : List Nat → List Nat) (C : PointCodec)
    (message public_key sig : List Nat) : Bool :=
  if check_s_lt_l (sig.drop 32) then false
  else
    match C.fromBytesNegate public_key with
    | none => false
    | some a =>
      if public_key.foldl (fun d b => d ||| b) 0 = 0 then false
      else
        let hash := sc_reduce (H (sig.take 32 ++ public_key ++ message))
        let r := double_scalarmult_vartime hash a (sig.drop 32)
        fixed_time_eq (C.toBytes r) (sig.take 32)

/-- Prime order of the coordinate field, 2^255 − 19 (spec: "prime field of order 2^255−19"). -/
def p25519 : Nat := 2^255 - 19

/-- Modelled from the spec: `Fe::from_bytes` of the missing `crate::curve25519` — "decode
a 32-byte little-endian buffer into an element (top bit of the last byte is
ignored/cleared per curve convention)"; it reads bytes 0..32. -/
def fe_from_bytes (b : List Nat) : ZMod p25519 :=
  ((leVal (b.take 32) % 2 ^ 255 : Nat) : ZMod p25519)

/-- Modelled from the spec: `Fe::invert` — "exponentiation to (p−2) via a fixed
addition-chain of squarings and multiplications". -/
def fe_invert (x : ZMod p25519) : ZMod p25519 := x ^ (p25519 - 2)

/-- Modelled from the spec: `Fe::to_bytes` — "encode an element to a fully reduced
32-byte little-endian buffer". -/
def fe_to_bytes (x : ZMod p25519) : List Nat := natToLE 32 x.val

/-- Translation of `fn edwards_to_montgomery_x` (with `Fe([1,0,...,0]) = 1`). -/
def edwards_to_montgomery_x (ed_y : ZMod p25519) : ZMod p25519 :=
  let ed_z : ZMod p25519 := 1
  let temp_x := ed_z + ed_y
  let temp_z := ed_z - ed_y
  let temp_z_inv := fe_invert temp_z
  temp_x * temp_z_inv

/-- Clamping steps of `exchange`: `hash[0] &= 248; hash[31] &= 127; hash[31] |= 64`. -/
def clampX (h : List Nat) : List Nat :=
  (h.set 0 ((h.getD 0 0) &&& 248)).set 31 (((h.getD 31 0) &&& 127) ||| 64)

/-- Translation of `pub fn exchange` (`X` is the external Montgomery-ladder scalar
multiplication `curve25519(scalar_bytes, point_bytes)` of the missing module). -/
def exchange (H : List Nat → List Nat) (X : List Nat → List Nat → List Nat)
    (public_key private_key : List Nat) : List Nat :=
  let ed_y := fe_from_bytes public_key
  let mont_x := edwards_to_montgomery_x ed_y
  let hash := clampX (H (private_key.take 32))
  X hash (fe_to_bytes mont_x)

/-- Panic-as-`none` model of `keypair`: `assert!(seed.len() == SEED_LENGTH)`. -/
def keypairChecked (H : List Nat → List Nat) (C : PointCodec) (seed : List Nat) :
    Option (List Nat × List Nat) :=
  if seed.length = 32 then some (keypair H C seed) else none

/-- Panic-as-`none` model of `signature`: `assert!(secret_key.len() == PRIVATE_KEY_LENGTH)`. -/
def signatureChecked (H : List Nat → List Nat) (C : PointCodec)
    (message secret_key : List Nat) : Option (List Nat) :=
  if secret_key.length = 64 then some (signature H C message secret_key) else none

/-- Panic-as-`none` model of `signature_extended`:
`assert!(extended_secret.len() == PRIVATE_KEY_LENGTH)`. -/
def signatureExtendedChecked (H : List Nat → List Nat) (C : PointCodec)
    (message extended_secret : List Nat) : Option (List Nat) :=
  if extended_secret.length = 64 then
    some (signature_extended H C message extended_secret)
  else none

/-- Panic-as-`none` model of `verify`: the two assertions on the public-key and
signature lengths. -/
def verifyChecked (H : List Nat → List Nat) (C : PointCodec)
    (message public_key sig : List Nat) : Option Bool :=
  if public_key.length = 32 ∧ sig.length = 64 then
    some (verify H C message public_key sig)
  else none

/-- Panic-as-`none` model of `to_public`: the source has no assertion; its only panic
source is the slice `&extended_secret[0..32]`, which fails exactly when the buffer holds
fewer than 32 bytes. -/
def toPublicChecked (C : PointCodec) (extended_secret : List Nat) : Option (List Nat) :=
  if 32 ≤ extended_secret.length then some (to_public C extended_secret) else none

/-- Panic-as-`none` model of `exchange`: no assertion; `&private_key[0..32]` requires at
least 32 bytes, and (modelled from the spec) `Fe::from_bytes` reads bytes 0..32 of the
public key, requiring at least 32 bytes; longer buffers are accepted. -/
def exchangeChecked (H : List Nat → List Nat) (X : List Nat → List Nat → List Nat)
    (public_key private_key : List Nat) : Option (List Nat) :=
  if 32 ≤ public_key.length ∧ 32 ≤ private_key.length then
    some (exchange H X public_key private_key)
  else none

/-- Specification of the external digest collaborator: a 512-bit digest produces 64
output bytes from any input. -/
def DigestGood (H : List Nat → List Nat) : Prop :=
  ∀ x, (H x).length = 64 ∧ ∀ b ∈ H x, b < 256

/-! ### Basic facts about the byte encodings -/

theorem leVal_nil : leVal [] = 0 := rfl

theorem leVal_cons (b : Nat) (l : List Nat) : leVal (b :: l) = b + 256 * leVal l := rfl

theorem leVal_append (a b : List Nat) :
    leVal (a ++ b) = leVal a + 256 ^ a.length * leVal b := by
  induction a with
  | nil => simp [leVal]
  | cons x t ih =>
    simp only [List.cons_append, leVal_cons, ih, List.length_cons]
    ring

theorem leVal_replicate_zero (n : Nat) : leVal (List.replicate n 0) = 0 := by
  induction n with
  | zero => rfl
  | succ k ih => simp [List.replicate_succ, leVal_cons, ih]

theorem leVal_lt_pow (l : List Nat) (hl : ∀ b ∈ l, b < 256) :
    leVal l < 256 ^ l.length := by
  induction l with
  | nil => simp [leVal]
  | cons x t ih =>
    have hx : x < 256 := hl x (by simp)
    have ht : leVal t < 256 ^ t.length := ih fun b hb => hl b (by simp [hb])
    simp only [leVal_cons, List.length_cons, pow_succ]
    calc x + 256 * leVal t < 256 + 256 * leVal t := by omega
    _ = 256 * (leVal t + 1) := by ring
    _ ≤ 256 * 256 ^ t.length := by
        exact Nat.mul_le_mul_left 256 (by omega)
    _ = 256 ^ t.length * 256 := by ring

theorem natToLE_length (k v : Nat) : (natToLE k v).length = k := by
  induction k generalizing v with
  | zero => rfl
  | succ n ih => simp [natToLE, ih]

theorem natToLE_bytes (k v : Nat) : ∀ b ∈ natToLE k v, b < 256 := by
  induction k generalizing v with
  | zero => simp [natToLE]
  | succ n ih =>
    intro b hb
    simp only [natToLE, List.mem_cons] at hb
    rcases hb with h | h
    · omega
    · exact ih _ b h

theorem leVal_natToLE (k v : Nat) (h : v < 256 ^ k) : leVal (natToLE k v) = v := by
  induction k generalizing v with
  | zero =>
    simp only [pow_zero, Nat.lt_one_iff] at h
    simp [natToLE, leVal, h]
  | succ n ih =>
    have hdiv : v / 256 < 256 ^ n := by
      rw [Nat.div_lt_iff_lt_mul (by norm_num)]
      calc v < 256 ^ (n + 1) := h
      _ = 256 ^ n * 256 := by ring
    simp only [natToLE, leVal_cons, ih _ hdiv]
    omega

theorem overwrite_length (dst src : List Nat) : (overwrite dst src).length = dst.length := by
  simp only [overwrite, List.length_append, List.length_take, List.length_drop]
  omega

theorem overwrite_of_length_eq (dst src : List Nat) (h : dst.length = src.length) :
    overwrite dst src = src := by
  simp [overwrite, h, List.take_of_length_le, List.drop_eq_nil_of_le, Nat.le_refl]

theorem Lorder_pos : 0 < Lorder := by norm_num [Lorder]

theorem Lorder_lt : Lorder < 256 ^ 32 := by norm_num [Lorder]

/-! ### Concrete instances used by witnesses -/

/-- Concrete point codec witnessing that the `PointCodec` interface is satisfiable: the
subgroup point `P` is encoded as the 32 little-endian bytes of `P % Lorder + 1` (an
injective 32-byte encoding that never produces the all-zero string). -/
def codec0 : PointCodec where
  toBytes P := natToLE 32 (P % Lorder + 1)
  fromBytesNegate b :=
    if 1 ≤ leVal b ∧ leVal b ≤ Lorder then some ((Lorder - (leVal b - 1)) % Lorder) else none
  toBytes_length P := natToLE_length _ _
  toBytes_bytes P := natToLE_bytes _ _
  fromBytes_toBytes P hP := by
    have hm : P % Lorder = P := Nat.mod_eq_of_lt hP
    have hv : leVal (natToLE 32 (P % Lorder + 1)) = P % Lorder + 1 := by
      refine leVal_natToLE _ _ ?_
      have h1 : P % Lorder < Lorder := Nat.mod_lt _ Lorder_pos
      have := Lorder_lt
      omega
    simp only [hm] at hv
    simp only [hm, hv]
    rw [if_pos ⟨by omega, by omega⟩]
    norm_num
  toBytes_ne_zero P h := by
    have hv : leVal (natToLE 32 (P % Lorder + 1)) = P % Lorder + 1 := by
      refine leVal_natToLE _ _ ?_
      have h1 : P % Lorder < Lorder := Nat.mod_lt _ Lorder_pos
      have := Lorder_lt
      omega
    have h2 := congrArg leVal h
    simp only [leVal_replicate_zero] at h2
    rw [hv] at h2
    omega

/-- Concrete digest used by witnesses: constant all-zero 64-byte output. -/
def H0 : List Nat → List Nat := fun _ => List.replicate 64 0

theorem DigestGood_H0 : DigestGood H0 := by
  intro x
  refine ⟨by simp [H0], ?_⟩
  intro b hb
  simp only [H0, List.mem_replicate] at hb
  omega

/-- Concrete Montgomery-ladder placeholder used by witnesses. -/
def X0 : List Nat → List Nat → List Nat := fun _ _ => List.replicate 32 0

/-- Concrete 32-byte seed used by witnesses. -/
def seed0 : List Nat := List.replicate 32 0

/-! ### Characterization of the `check_s_lt_l` loop -/

theorem shrU8_sub_byte (a b : Nat) (ha : a < 256) (hb : b < 256) :
    shrU8 ((a : Int) - (b : Int)) = if a < b then 255 else 0 := by
  unfold shrU8
  split <;> omega

theorem shrU8_pred_byte (x : Nat) (hx : x < 256) :
    shrU8 ((x : Int) - 1) = if x = 0 then 255 else 0 := by
  unfold shrU8
  split <;> omega

theorem and_one_of_le_one {n : Nat} (hn : n ≤ 1) : n &&& 1 = n := by
  interval_cases n <;> rfl

theorem lor_le_one {c n : Nat} (hc : c ≤ 1) (hn : n ≤ 1) : c ||| n ≤ 1 := by
  interval_cases c <;> interval_cases n <;> decide

theorem land_le_one {n m : Nat} (hn : n ≤ 1) : n &&& m ≤ 1 :=
  le_trans Nat.and_le_left hn

theorem csllStep_eq (si li c n : Nat) (hsi : si < 256) (hli : li < 256)
    (hc : c ≤ 1) (hn : n ≤ 1) :
    csllStep si li (c, n) =
      (c ||| (n &&& (if si < li then 1 else 0)), n &&& (if si = li then 1 else 0)) := by
  have hxor : si ^^^ li < 256 := Nat.xor_lt_two_pow (n := 8) hsi hli
  unfold csllStep
  rw [shrU8_sub_byte si li hsi hli, shrU8_pred_byte _ hxor]
  simp only [Nat.xor_eq_zero]
  interval_cases c <;> interval_cases n <;> split <;> split <;> rfl

/-- Prefix of the `check_s_lt_l` loop: the iterations for indices `j-1, ..., 0`. -/
def csllFold (s : List Nat) (j : Nat) (cn : Nat × Nat) : Nat × Nat :=
  ((List.range j).reverse).foldl (fun cn i => csllStep (s.getD i 0) (L.getD i 0) cn) cn

theorem csllFold_succ (s : List Nat) (j : Nat) (cn : Nat × Nat) :
    csllFold s (j+1) cn = csllFold s j (csllStep (s.getD j 0) (L.getD j 0) cn) := by
  unfold csllFold
  rw [List.range_succ]
  simp

theorem getD_lt_of_bytes (s : List Nat) (hs : ∀ b ∈ s, b < 256) (j : Nat) :
    s.getD j 0 < 256 := by
  by_cases h : j < s.length
  · have he : s.getD j 0 = s[j] := List.getD_eq_getElem s 0 h
    rw [he]
    exact hs _ (List.getElem_mem h)
  · rw [List.getD_eq_default s 0 (by omega)]
    norm_num

theorem L_bytes : ∀ b ∈ L, b < 256 := by decide

theorem L_length : L.length = 32 := by decide

theorem leVal_take_succ (s : List Nat) (j : Nat) (h : j < s.length) :
    leVal (s.take (j+1)) = leVal (s.take j) + 256 ^ j * s.getD j 0 := by
  induction j generalizing s with
  | zero =>
    cases s with
    | nil => simp at h
    | cons a t =>
      simp [leVal_cons, leVal_nil, List.getD_cons_zero, leVal]
  | succ n ih =>
    cases s with
    | nil => simp at h
    | cons a t =>
      simp only [List.length_cons] at h
      simp only [List.take_succ_cons, leVal_cons, List.getD_cons_succ]
      rw [ih t (by omega)]
      ring

theorem leVal_take_lt (s : List Nat) (hs : ∀ b ∈ s, b < 256) (j : Nat) :
    leVal (s.take j) < 256 ^ j := by
  have h1 : leVal (s.take j) < 256 ^ (s.take j).length :=
    leVal_lt_pow _ fun b hb => hs b (List.take_subset j s hb)
  calc leVal (s.take j) < 256 ^ (s.take j).length := h1
  _ ≤ 256 ^ j := Nat.pow_le_pow_right (by norm_num) (by simp)

theorem lt_iff_msb (M x y a b : Nat) (hx : x < M) (hy : y < M) :
    x + M * a < y + M * b ↔ a < b ∨ (a = b ∧ x < y) := by
  constructor
  · intro h
    rcases Nat.lt_trichotomy a b with hab | hab | hab
    · exact Or.inl hab
    · exact Or.inr ⟨hab, by subst hab; omega⟩
    · exfalso
      have h1 : M * b + M ≤ M * a := by
        calc M * b + M = M * (b + 1) := by ring
        _ ≤ M * a := Nat.mul_le_mul_left M hab
      omega
  · intro h
    rcases h with hab | ⟨rfl, hxy⟩
    · have h1 : M * a + M ≤ M * b := by
        calc M * a + M = M * (a + 1) := by ring
        _ ≤ M * b := Nat.mul_le_mul_left M hab
      omega
    · omega

theorem eq_iff_msb (M x y a b : Nat) (hM : 0 < M) (hx : x < M) (hy : y < M) :
    x + M * a = y + M * b ↔ a = b ∧ x = y := by
  constructor
  · intro h
    have ha : (x + M * a) / M = a := by
      rw [Nat.add_mul_div_left _ _ hM, Nat.div_eq_of_lt hx]
      omega
    have hb : (y + M * b) / M = b := by
      rw [Nat.add_mul_div_left _ _ hM, Nat.div_eq_of_lt hy]
      omega
    have hab : a = b := by rw [← ha, ← hb, h]
    subst hab
    exact ⟨rfl, by omega⟩
  · rintro ⟨rfl, rfl⟩
    rfl

theorem csllFold_eq (s : List Nat) (hlen : s.length = 32) (hs : ∀ b ∈ s, b < 256) :
    ∀ j, j ≤ 32 → ∀ c n : Nat, c ≤ 1 → n ≤ 1 →
      csllFold s j (c, n) =
        (c ||| (n &&& (if leVal (s.take j) < leVal (L.take j) then 1 else 0)),
         n &&& (if leVal (s.take j) = leVal (L.take j) then 1 else 0)) := by
  intro j
  induction j with
  | zero =>
    intro _ c n hc hn
    simp only [csllFold, List.range_zero, List.reverse_nil, List.foldl_nil, List.take_zero]
    simp [and_one_of_le_one hn]
  | succ j ih =>
    intro hj c n hc hn
    have hsj : s.getD j 0 < 256 := getD_lt_of_bytes s hs j
    have hlj : L.getD j 0 < 256 := getD_lt_of_bytes L L_bytes j
    rw [csllFold_succ, csllStep_eq _ _ _ _ hsj hlj hc hn]
    have hc' : c ||| (n &&& (if s.getD j 0 < L.getD j 0 then 1 else 0)) ≤ 1 :=
      lor_le_one hc (land_le_one hn)
    have hn' : n &&& (if s.getD j 0 = L.getD j 0 then 1 else 0) ≤ 1 := land_le_one hn
    rw [ih (by omega) _ _ hc' hn']
    have e1 : leVal (s.take (j+1)) = leVal (s.take j) + 256 ^ j * s.getD j 0 :=
      leVal_take_succ s j (by omega)
    have e2 : leVal (L.take (j+1)) = leVal (L.take j) + 256 ^ j * L.getD j 0 :=
      leVal_take_succ L j (by rw [L_length]; omega)
    have hx : leVal (s.take j) < 256 ^ j := leVal_take_lt s hs j
    have hy : leVal (L.take j) < 256 ^ j := leVal_take_lt L L_bytes j
    have hlt_iff := lt_iff_msb (256 ^ j) (leVal (s.take j)) (leVal (L.take j))
      (s.getD j 0) (L.getD j 0) hx hy
    have heq_iff := eq_iff_msb (256 ^ j) (leVal (s.take j)) (leVal (L.take j))
      (s.getD j 0) (L.getD j 0) (by positivity) hx hy
    rw [e1, e2]
    set a1 := s.getD j 0 with ha1
    set b1 := L.getD j 0 with hb1
    set x := leVal (s.take j) with hx1
    set y := leVal (L.take j) with hy1
    have hmod : n % 2 = n := by omega
    rcases Nat.lt_trichotomy a1 b1 with hab | hab | hab
    · have hne : a1 ≠ b1 := by omega
      have hsum_lt : x + 256 ^ j * a1 < y + 256 ^ j * b1 := hlt_iff.mpr (Or.inl hab)
      have hsum_ne : ¬(x + 256 ^ j * a1 = y + 256 ^ j * b1) :=
        fun hcon => hne (heq_iff.mp hcon).1
      simp [hab, hne, hsum_lt, hsum_ne, and_one_of_le_one hn, hmod]
    · have h2 : (x + 256 ^ j * a1 < y + 256 ^ j * b1) ↔ (x < y) := by
        rw [hlt_iff]
        constructor
        · rintro (h | ⟨_, h⟩)
          · omega
          · exact h
        · intro h
          exact Or.inr ⟨hab, h⟩
      have h3 : (x + 256 ^ j * a1 = y + 256 ^ j * b1) ↔ (x = y) := by
        rw [heq_iff]
        constructor
        · rintro ⟨_, h⟩
          exact h
        · intro h
          exact ⟨hab, h⟩
      simp only [h2, h3]
      simp [hab, and_one_of_le_one hn, hmod]
    · have hlt' : ¬(a1 < b1) := by omega
      have hne : ¬(a1 = b1) := by omega
      have hsum_nlt : ¬(x + 256 ^ j * a1 < y + 256 ^ j * b1) := fun hcon => by
        rcases hlt_iff.mp hcon with h1 | ⟨h1, _⟩ <;> omega
      have hsum_ne : ¬(x + 256 ^ j * a1 = y + 256 ^ j * b1) :=
        fun hcon => hne (heq_iff.mp hcon).1
      simp [hlt', hne, hsum_nlt, hsum_ne, hmod]

theorem check_s_lt_l_iff (s : List Nat) (hlen : s.length = 32) (hs : ∀ b ∈ s, b < 256) :
    check_s_lt_l s = true ↔ leVal L ≤ leVal s := by
  have h := csllFold_eq s hlen hs 32 (le_refl 32) 0 1 (by omega) (by omega)
  have hck : check_s_lt_l s = ((csllFold s 32 (0, 1)).1 == 0) := rfl
  have hts : s.take 32 = s := List.take_of_length_le (by omega)
  have htL : L.take 32 = L := List.take_of_length_le (by rw [L_length])
  rw [hck, h, hts, htL]
  rcases lt_or_ge (leVal s) (leVal L) with h1 | h1
  · rw [if_pos h1]
    norm_num
    omega
  · rw [if_neg (not_lt.mpr h1)]
    norm_num
    exact h1

theorem check_s_lt_l_eq_false (s : List Nat) (hlen : s.length = 32)
    (hs : ∀ b ∈ s, b < 256) (h : leVal s < leVal L) : check_s_lt_l s = false := by
  cases hb : check_s_lt_l s
  · rfl
  · exfalso
    have := (check_s_lt_l_iff s hlen hs).mp hb
    omega

theorem Lorder_lt_leL : Lorder < leVal L := by decide

/-! ### Lemmas about clamping, the byte-or fold, and the scalar arithmetic -/

theorem clampEd_length (h : List Nat) : (clampEd h).length = h.length := by
  simp [clampEd]

theorem clampX_length (h : List Nat) : (clampX h).length = h.length := by
  simp [clampX]

theorem getD_set_ne (l : List Nat) (i j a : Nat) (hij : i ≠ j) :
    (l.set i a).getD j 0 = l.getD j 0 := by
  simp [List.getD_eq_getElem?_getD, List.getElem?_set_ne hij]

theorem getD_set_self (l : List Nat) (i a : Nat) (hi : i < l.length) :
    (l.set i a).getD i 0 = a := by
  simp [List.getD_eq_getElem?_getD, List.getElem?_set_eq_of_lt a hi]

theorem clampEd_getD_zero (h : List Nat) (hl : 0 < h.length) :
    (clampEd h).getD 0 0 = (h.getD 0 0) &&& 248 := by
  unfold clampEd
  rw [getD_set_ne _ _ _ _ (by omega)]
  exact getD_set_self h 0 _ hl

theorem clampEd_getD_31 (h : List Nat) (hl : 31 < h.length) :
    (clampEd h).getD 31 0 = ((h.getD 31 0) &&& 63) ||| 64 := by
  unfold clampEd
  exact getD_set_self _ 31 _ (by simp [hl])

theorem clampEd_getD_other (h : List Nat) (i : Nat) (h0 : i ≠ 0) (h31 : i ≠ 31) :
    (clampEd h).getD i 0 = h.getD i 0 := by
  unfold clampEd
  rw [getD_set_ne _ _ _ _ (by omega), getD_set_ne _ _ _ _ (by omega)]

theorem clampX_getD_zero (h : List Nat) (hl : 0 < h.length) :
    (clampX h).getD 0 0 = (h.getD 0 0) &&& 248 := by
  unfold clampX
  rw [getD_set_ne _ _ _ _ (by omega)]
  exact getD_set_self h 0 _ hl

theorem clampX_getD_31 (h : List Nat) (hl : 31 < h.length) :
    (clampX h).getD 31 0 = ((h.getD 31 0) &&& 127) ||| 64 := by
  unfold clampX
  exact getD_set_self _ 31 _ (by simp [hl])

theorem clampX_getD_other (h : List Nat) (i : Nat) (h0 : i ≠ 0) (h31 : i ≠ 31) :
    (clampX h).getD i 0 = h.getD i 0 := by
  unfold clampX
  rw [getD_set_ne _ _ _ _ (by omega), getD_set_ne _ _ _ _ (by omega)]

theorem lor_eq_zero_iff (a b : Nat) : a ||| b = 0 ↔ a = 0 ∧ b = 0 := by
  constructor
  · intro h
    have h1 : ∀ i, a.testBit i = false ∧ b.testBit i = false := by
      intro i
      have := congrArg (fun t => t.testBit i) h
      simpa [Nat.testBit_or] using this
    constructor
    · exact Nat.eq_of_testBit_eq fun i => by simp [(h1 i).1]
    · exact Nat.eq_of_testBit_eq fun i => by simp [(h1 i).2]
  · rintro ⟨rfl, rfl⟩
    rfl

theorem foldl_lor_eq_zero_iff (l : List Nat) :
    ∀ a : Nat, l.foldl (fun d b => d ||| b) a = 0 ↔ a = 0 ∧ ∀ b ∈ l, b = 0 := by
  induction l with
  | nil => intro a; simp
  | cons x t ih =>
    intro a
    simp only [List.foldl_cons, ih (a ||| x), List.mem_cons]
    constructor
    · rintro ⟨h1, h2⟩
      have h3 := (lor_eq_zero_iff a x).mp h1
      refine ⟨h3.1, fun b hb => ?_⟩
      rcases hb with rfl | hb
      · exact h3.2
      · exact h2 b hb
    · rintro ⟨rfl, h2⟩
      have hx : x = 0 := h2 x (Or.inl rfl)
      subst hx
      exact ⟨rfl, fun b hb => h2 b (Or.inr hb)⟩

theorem leVal_sc_reduce (s : List Nat) : leVal (sc_reduce s) = leVal s % Lorder := by
  unfold sc_reduce
  exact leVal_natToLE _ _ (lt_trans (Nat.mod_lt _ Lorder_pos) Lorder_lt)

theorem sc_reduce_length (s : List Nat) : (sc_reduce s).length = 32 := natToLE_length _ _

theorem sc_reduce_bytes (s : List Nat) : ∀ b ∈ sc_reduce s, b < 256 := natToLE_bytes _ _

theorem leVal_sc_muladd (a b c : List Nat) :
    leVal (sc_muladd a b c) = (leVal a * leVal b + leVal c) % Lorder := by
  unfold sc_muladd
  exact leVal_natToLE _ _ (lt_trans (Nat.mod_lt _ Lorder_pos) Lorder_lt)

theorem sc_muladd_length (a b c : List Nat) : (sc_muladd a b c).length = 32 :=
  natToLE_length _ _

theorem sc_muladd_bytes (a b c : List Nat) : ∀ x ∈ sc_muladd a b c, x < 256 :=
  natToLE_bytes _ _

/-! ### Arithmetic modulo the group order, via `ZMod` -/

theorem castL_mod (a : Nat) : ((a % Lorder : Nat) : ZMod Lorder) = (a : ZMod Lorder) :=
  ZMod.natCast_mod a Lorder

theorem modL_inj (x y : Nat) (h : (x : ZMod Lorder) = (y : ZMod Lorder))
    (h1 : x < Lorder) (h2 : y < Lorder) : x = y := by
  have h3 := (ZMod.natCast_eq_natCast_iff' x y Lorder).mp h
  rw [Nat.mod_eq_of_lt h1, Nat.mod_eq_of_lt h2] at h3
  exact h3

/-- Core algebraic cancellation behind signature verification: with `A = av·G` decoded
negated, `k·(−A) + (k·av + rv)·G = rv·G`. -/
theorem dsm_cancel (k av rv : Nat) (hrv : rv < Lorder) :
    (k * ((Lorder - av % Lorder) % Lorder) + (k * av + rv) % Lorder) % Lorder = rv := by
  have hL := Lorder_pos
  apply modL_inj _ _ _ (Nat.mod_lt _ hL) hrv
  have hle : av % Lorder ≤ Lorder := le_of_lt (Nat.mod_lt _ hL)
  push_cast [castL_mod, Nat.cast_sub hle, ZMod.natCast_self]
  ring

theorem take_app (a b : List Nat) (h : a.length = 32) : (a ++ b).take 32 = a := by
  rw [← h, List.take_left]

theorem drop_app (a b : List Nat) (h : a.length = 32) : (a ++ b).drop 32 = b := by
  rw [← h, List.drop_left]

/-! ### Unfolding the protocol functions -/

theorem keypair_eq (H : List Nat → List Nat) (C : PointCodec) (seed : List Nat)
    (hH : DigestGood H) (hseed : seed.length = 32) :
    keypair H C seed =
      (seed ++ C.toBytes (ge_scalarmult_base ((clampEd (H seed)).take 32)),
       C.toBytes (ge_scalarmult_base ((clampEd (H seed)).take 32))) := by
  have hlen : (clampEd (H seed)).length = 64 := by rw [clampEd_length]; exact (hH seed).1
  simp only [keypair]
  set az := clampEd (H seed) with haz
  set pk := C.toBytes (ge_scalarmult_base (az.take 32)) with hpk
  have hpk_len : pk.length = 32 := C.toBytes_length _
  have h1 : overwrite (az.drop 32) pk = pk :=
    overwrite_of_length_eq _ _ (by rw [List.length_drop, hlen, hpk_len])
  rw [h1]
  have htl : (az.take 32).length = 32 := by
    rw [List.length_take, hlen]
    omega
  have htake : (az.take 32 ++ pk).take 32 = az.take 32 := take_app _ _ htl
  have hdrop : (az.take 32 ++ pk).drop 32 = pk := drop_app _ _ htl
  rw [htake, hdrop]
  have h2 : overwrite (az.take 32) seed = seed :=
    overwrite_of_length_eq _ _ (by rw [htl, hseed])
  rw [h2]

/-- Common core of `signature` and `signature_extended` once the key material is
resolved: `az` plays the role of the clamped hash output (or the extended secret) and
`pk` the 32-byte public key written into the signature buffer. -/
def signCore (H : List Nat → List Nat) (C : PointCodec) (m az pk : List Nat) : List Nat :=
  let nonce := sc_reduce (H ((az.drop 32).take 32 ++ m))
  let rB := C.toBytes (ge_scalarmult_base nonce)
  let hram := sc_reduce (H ((rB ++ pk) ++ m))
  rB ++ sc_muladd hram (az.take 32) nonce

theorem signature_eq (H : List Nat → List Nat) (C : PointCodec) (m seed pk : List Nat)
    (hseed : seed.length = 32) (hpk : pk.length = 32) :
    signature H C m (seed ++ pk) = signCore H C m (clampEd (H seed)) pk := by
  simp only [signature, signCore]
  rw [take_app _ _ hseed, drop_app _ _ hseed, List.take_of_length_le (le_of_eq hpk)]
  set az := clampEd (H seed)
  set nonce := sc_reduce (H ((az.drop 32).take 32 ++ m)) with hnonce
  set rB := C.toBytes (ge_scalarmult_base nonce) with hrB
  have hrBlen : rB.length = 32 := C.toBytes_length _
  rw [overwrite_of_length_eq (List.replicate 32 0) rB (by rw [List.length_replicate, hrBlen]),
    overwrite_of_length_eq (List.replicate 32 0) pk (by rw [List.length_replicate, hpk]),
    take_app _ _ hrBlen]

theorem signature_extended_eq (H : List Nat → List Nat) (C : PointCodec)
    (m es : List Nat) :
    signature_extended H C m es = signCore H C m es (to_public C es) := by
  simp only [signature_extended, signCore]
  set pk := to_public C es with hpkdef
  have hpk : pk.length = 32 := C.toBytes_length _
  set nonce := sc_reduce (H ((es.drop 32).take 32 ++ m)) with hnonce
  set rB := C.toBytes (ge_scalarmult_base nonce) with hrB
  have hrBlen : rB.length = 32 := C.toBytes_length _
  rw [overwrite_of_length_eq (List.replicate 32 0) rB (by rw [List.length_replicate, hrBlen]),
    overwrite_of_length_eq (List.replicate 32 0) pk (by rw [List.length_replicate, hpk]),
    take_app _ _ hrBlen]

/-- Verification accepts an honestly produced signature: for any key material `az`, the
signature produced by `signCore` for the public key derived from `az` passes `verify`. -/
theorem verify_of_honest (H : List Nat → List Nat) (C : PointCodec) (m az : List Nat) :
    verify H C m (C.toBytes (ge_scalarmult_base (az.take 32)))
      (signCore H C m az (C.toBytes (ge_scalarmult_base (az.take 32)))) = true := by
  set av := leVal (az.take 32) with hav
  set A := ge_scalarmult_base (az.take 32) with hA
  have hAval : A = av % Lorder := hA
  have hAlt : A < Lorder := by rw [hAval]; exact Nat.mod_lt _ Lorder_pos
  set pk := C.toBytes A with hpk
  have hpklen : pk.length = 32 := C.toBytes_length _
  simp only [signCore]
  set nonce := sc_reduce (H ((az.drop 32).take 32 ++ m)) with hnonce
  have hrv : leVal nonce < Lorder := by
    rw [hnonce, leVal_sc_reduce]
    exact Nat.mod_lt _ Lorder_pos
  have hgn : ge_scalarmult_base nonce = leVal nonce := by
    rw [ge_scalarmult_base, Nat.mod_eq_of_lt hrv]
  set rB := C.toBytes (ge_scalarmult_base nonce) with hrB
  have hrBlen : rB.length = 32 := C.toBytes_length _
  set hram := sc_reduce (H ((rB ++ pk) ++ m)) with hhram
  set sB := sc_muladd hram (az.take 32) nonce with hsB
  have hsBlen : sB.length = 32 := by rw [hsB]; exact sc_muladd_length _ _ _
  have hsBval : leVal sB = (leVal hram * av + leVal nonce) % Lorder := by
    rw [hsB]
    exact leVal_sc_muladd _ _ _
  have hchk : check_s_lt_l sB = false := by
    refine check_s_lt_l_eq_false sB hsBlen (by rw [hsB]; exact sc_muladd_bytes _ _ _) ?_
    rw [hsBval]
    have h1 : (leVal hram * av + leVal nonce) % Lorder < Lorder := Nat.mod_lt _ Lorder_pos
    have h2 := Lorder_lt_leL
    omega
  have hdec : C.fromBytesNegate pk = some ((Lorder - A) % Lorder) := by
    rw [hpk]
    exact C.fromBytes_toBytes A hAlt
  have hnz : ¬(pk.foldl (fun d b => d ||| b) 0 = 0) := by
    intro hcon
    have h2 := (foldl_lor_eq_zero_iff pk 0).mp hcon
    have h3 : pk = List.replicate 32 0 := by
      rw [List.eq_replicate_iff]
      exact ⟨hpklen, h2.2⟩
    exact C.toBytes_ne_zero A (hpk ▸ h3)
  simp only [verify]
  rw [drop_app _ _ hrBlen, take_app _ _ hrBlen]
  rw [if_neg (show ¬(check_s_lt_l sB = true) by rw [hchk]; exact Bool.false_ne_true)]
  rw [hdec]
  split
  next heq => exact absurd heq (by simp)
  next a heq =>
    have ha : (Lorder - A) % Lorder = a := by injection heq
    subst ha
    rw [if_neg hnz]
    rw [← hhram]
    have hr : double_scalarmult_vartime hram ((Lorder - A) % Lorder) sB = leVal nonce := by
      rw [double_scalarmult_vartime, hsBval, hAval]
      exact dsm_cancel (leVal hram) av (leVal nonce) hrv
    rw [hr, ← hgn, ← hrB]
    simp [fixed_time_eq]

/-! ### The sign/verify round trip (C1) and path equivalence (C9) -/

/-- C1: for every 32-byte seed and every message, with `(secret, public) = keypair(seed)`,
`verify(message, public, signature(message, secret))` returns `true` — for every digest
collaborator and every point codec satisfying the spec's interfaces. -/
theorem sign_verify_roundtrip (H : List Nat → List Nat) (C : PointCodec)
    (seed m : List Nat) (hH : DigestGood H) (hseed : seed.length = 32) :
    verify H C m (keypair H C seed).2 (signature H C m (keypair H C seed).1) = true := by
  simp only [keypair_eq H C seed hH hseed]
  rw [signature_eq H C m seed _ hseed (C.toBytes_length _)]
  exact verify_of_honest H C m (clampEd (H seed))

/-- Witness for C1: the concrete digest `H0`, codec `codec0`, the zero seed and the
empty message. -/
theorem sign_verify_roundtrip_witness :
    verify H0 codec0 [] (keypair H0 codec0 seed0).2
      (signature H0 codec0 [] (keypair H0 codec0 seed0).1) = true :=
  sign_verify_roundtrip H0 codec0 seed0 [] DigestGood_H0 (by decide)

/-- C9: the seed-based and the extended-secret signing paths agree on keypair-derived
keys: `signature(m, (keypair s).1) = signature_extended(m, e)` where `e` is the 64-byte
digest of the seed with its low half clamped (byte 0 `&= 248`, byte 31 `&= 63; |= 64`). -/
theorem signature_extended_agrees (H : List Nat → List Nat) (C : PointCodec)
    (seed m : List Nat) (hH : DigestGood H) (hseed : seed.length = 32) :
    signature H C m (keypair H C seed).1 = signature_extended H C m (clampEd (H seed)) := by
  simp only [keypair_eq H C seed hH hseed]
  rw [signature_eq H C m seed _ hseed (C.toBytes_length _), signature_extended_eq]
  rfl

/-- Witness for C9 at the concrete instances. -/
theorem signature_extended_agrees_witness :
    signature H0 codec0 [] (keypair H0 codec0 seed0).1 =
      signature_extended H0 codec0 [] (clampEd (H0 seed0)) :=
  signature_extended_agrees H0 codec0 seed0 [] DigestGood_H0 (by decide)

/-! ### Byte-level content of the clamping operations -/

theorem testBit_ge8_eq_false {b : Nat} (hb : b < 256) {j : Nat} (hj : 8 ≤ j) :
    b.testBit j = false := by
  apply Nat.testBit_eq_false_of_lt
  calc b < 256 := hb
  _ = 2 ^ 8 := by norm_num
  _ ≤ 2 ^ j := Nat.pow_le_pow_right (by norm_num) hj

theorem and248_testBit (b : Nat) (hb : b < 256) (j : Nat) :
    (b &&& 248).testBit j = (decide (3 ≤ j) && b.testBit j) := by
  by_cases hj : j < 8
  · exact (show ∀ b < 256, ∀ j < 8,
      (b &&& 248).testBit j = (decide (3 ≤ j) && b.testBit j) by decide) b hb j hj
  · have h1 : b &&& 248 < 256 := lt_of_le_of_lt Nat.and_le_left hb
    rw [testBit_ge8_eq_false h1 (by omega), testBit_ge8_eq_false hb (by omega)]
    simp

theorem clampByteEd_testBit6 (b : Nat) (hb : b < 256) :
    ((b &&& 63) ||| 64).testBit 6 = true :=
  (show ∀ b < 256, ((b &&& 63) ||| 64).testBit 6 = true by decide) b hb

theorem clampByteEd_testBit7 (b : Nat) (hb : b < 256) :
    ((b &&& 63) ||| 64).testBit 7 = false :=
  (show ∀ b < 256, ((b &&& 63) ||| 64).testBit 7 = false by decide) b hb

theorem clampByteEd_testBit_other (b : Nat) (hb : b < 256) (j : Nat)
    (h6 : j ≠ 6) (h7 : j ≠ 7) : ((b &&& 63) ||| 64).testBit j = b.testBit j := by
  by_cases hj : j < 8
  · exact (show ∀ b < 256, ∀ j < 8, j ≠ 6 → j ≠ 7 →
      ((b &&& 63) ||| 64).testBit j = b.testBit j by decide) b hb j hj h6 h7
  · have h1 : (b &&& 63) ||| 64 < 256 :=
      Nat.or_lt_two_pow (n := 8) (Nat.and_lt_two_pow b (by norm_num)) (by norm_num)
    rw [testBit_ge8_eq_false h1 (by omega), testBit_ge8_eq_false hb (by omega)]

theorem clampByteX_testBit6 (b : Nat) (hb : b < 256) :
    ((b &&& 127) ||| 64).testBit 6 = true :=
  (show ∀ b < 256, ((b &&& 127) ||| 64).testBit 6 = true by decide) b hb

theorem clampByteX_testBit7 (b : Nat) (hb : b < 256) :
    ((b &&& 127) ||| 64).testBit 7 = false :=
  (show ∀ b < 256, ((b &&& 127) ||| 64).testBit 7 = false by decide) b hb

theorem clampByteX_testBit_other (b : Nat) (hb : b < 256) (j : Nat)
    (h6 : j ≠ 6) (h7 : j ≠ 7) : ((b &&& 127) ||| 64).testBit j = b.testBit j := by
  by_cases hj : j < 8
  · exact (show ∀ b < 256, ∀ j < 8, j ≠ 6 → j ≠ 7 →
      ((b &&& 127) ||| 64).testBit j = b.testBit j by decide) b hb j hj h6 h7
  · have h1 : (b &&& 127) ||| 64 < 256 :=
      Nat.or_lt_two_pow (n := 8) (Nat.and_lt_two_pow b (by norm_num)) (by norm_num)
    rw [testBit_ge8_eq_false h1 (by omega), testBit_ge8_eq_false hb (by omega)]

theorem getD_take_of_lt (l : List Nat) (n i : Nat) (h : i < n) :
    (l.take n).getD i 0 = l.getD i 0 := by
  simp [List.getD_eq_getElem?_getD, List.getElem?_take_of_lt h]

/-- Byte-level content of the key-pair clamping as the claim words it: bits 0–2 of
byte 0 cleared (the other bits kept), bit 7 of byte 31 cleared and bit 6 set (its bits
0–5 kept), and all other bytes of the low half unchanged. -/
def ClampedScalarSpec (h az : List Nat) : Prop :=
  az.length = 32 ∧
  (∀ j, (az.getD 0 0).testBit j = (decide (3 ≤ j) && (h.getD 0 0).testBit j)) ∧
  (az.getD 31 0).testBit 6 = true ∧
  (az.getD 31 0).testBit 7 = false ∧
  (∀ j, j ≠ 6 → j ≠ 7 → (az.getD 31 0).testBit j = (h.getD 31 0).testBit j) ∧
  (∀ i, 1 ≤ i → i ≤ 30 → az.getD i 0 = h.getD i 0)

theorem clamped_scalar_spec (h : List Nat) (hlen : h.length = 64)
    (hbytes : ∀ b ∈ h, b < 256) :
    ClampedScalarSpec h ((clampEd h).take 32) := by
  have hclen : (clampEd h).length = 64 := by rw [clampEd_length, hlen]
  have h0 : 0 < h.length := by omega
  have h31 : 31 < h.length := by omega
  have hb0 : h.getD 0 0 < 256 := getD_lt_of_bytes h hbytes 0
  have hb31 : h.getD 31 0 < 256 := getD_lt_of_bytes h hbytes 31
  refine ⟨?_, ?_, ?_, ?_, ?_, ?_⟩
  · rw [List.length_take, hclen]
    omega
  · intro j
    rw [getD_take_of_lt _ _ _ (by omega), clampEd_getD_zero h h0]
    exact and248_testBit _ hb0 j
  · rw [getD_take_of_lt _ _ _ (by omega), clampEd_getD_31 h h31]
    exact clampByteEd_testBit6 _ hb31
  · rw [getD_take_of_lt _ _ _ (by omega), clampEd_getD_31 h h31]
    exact clampByteEd_testBit7 _ hb31
  · intro j h6 h7
    rw [getD_take_of_lt _ _ _ (by omega), clampEd_getD_31 h h31]
    exact clampByteEd_testBit_other _ hb31 j h6 h7
  · intro i h1 h30
    rw [getD_take_of_lt _ _ _ (by omega), clampEd_getD_other h i (by omega) (by omega)]

/-- C3: `keypair` returns the extended secret `seed ++ public`, and the public key is
the encoding of the fixed-base scalar multiple of the clamped low 32 bytes of the
seed's 512-bit digest, where clamping clears bits 0–2 of byte 0 and clears bit 7 / sets
bit 6 of byte 31. -/
theorem keypair_structure (H : List Nat → List Nat) (C : PointCodec) (seed : List Nat)
    (hH : DigestGood H) (hseed : seed.length = 32) :
    (keypair H C seed).1 = seed ++ (keypair H C seed).2 ∧
    (keypair H C seed).2 = C.toBytes (ge_scalarmult_base ((clampEd (H seed)).take 32)) ∧
    ClampedScalarSpec (H seed) ((clampEd (H seed)).take 32) := by
  refine ⟨?_, ?_, clamped_scalar_spec (H seed) (hH seed).1 (hH seed).2⟩
  · simp [keypair_eq H C seed hH hseed]
  · simp [keypair_eq H C seed hH hseed]

/-- Witness for C3 at the concrete instances. -/
theorem keypair_structure_witness :
    (keypair H0 codec0 seed0).1 = seed0 ++ (keypair H0 codec0 seed0).2 ∧
    (keypair H0 codec0 seed0).2 =
      codec0.toBytes (ge_scalarmult_base ((clampEd (H0 seed0)).take 32)) ∧
    ClampedScalarSpec (H0 seed0) ((clampEd (H0 seed0)).take 32) :=
  keypair_structure H0 codec0 seed0 DigestGood_H0 (by decide)

/-- The signing equations exactly as the claim words them: with `seed = sk[0..32]`,
`A = sk[32..64]`, `a` the value of the clamped low half of the seed's digest and the
upper half its hash suffix — `r = H(upper ‖ m) mod L`, `R` the encoding of the
fixed-base multiple `r·G`, `k = H(R ‖ A ‖ m) mod L`, and `S = (k·a + r) mod L`, with
output `R ‖ S`. -/
def signatureSpec (H : List Nat → List Nat) (C : PointCodec) (m sk : List Nat) :
    List Nat :=
  let seed := sk.take 32
  let A := sk.drop 32
  let az := clampEd (H seed)
  let a := leVal (az.take 32)
  let upper := az.drop 32
  let r := leVal (H (upper ++ m)) % Lorder
  let R := C.toBytes r
  let k := leVal (H (R ++ A ++ m)) % Lorder
  let S := (k * a + r) % Lorder
  R ++ natToLE 32 S

/-- C4: `signature` computes exactly the spec's signing equations. -/
theorem signature_matches_spec (H : List Nat → List Nat) (C : PointCodec)
    (m sk : List Nat) (hH : DigestGood H) (hsk : sk.length = 64) :
    signature H C m sk = signatureSpec H C m sk := by
  have hazlen : (clampEd (H (sk.take 32))).length = 64 := by
    rw [clampEd_length]
    exact (hH _).1
  have hA : (sk.drop 32).length = 32 := by rw [List.length_drop, hsk]
  simp only [signature, signatureSpec]
  set az := clampEd (H (sk.take 32)) with hazdef
  have hupper : (az.drop 32).take 32 = az.drop 32 :=
    List.take_of_length_le (by rw [List.length_drop, hazlen])
  have hpk : (sk.drop 32).take 32 = sk.drop 32 := List.take_of_length_le (le_of_eq hA)
  rw [hupper, hpk]
  set nonce := sc_reduce (H (az.drop 32 ++ m)) with hnonce
  have hnv : leVal nonce = leVal (H (az.drop 32 ++ m)) % Lorder := leVal_sc_reduce _
  have hnlt : leVal nonce < Lorder := by
    rw [hnv]
    exact Nat.mod_lt _ Lorder_pos
  have hg : ge_scalarmult_base nonce = leVal (H (az.drop 32 ++ m)) % Lorder := by
    rw [ge_scalarmult_base, Nat.mod_eq_of_lt hnlt, hnv]
  rw [hg]
  set R := C.toBytes (leVal (H (az.drop 32 ++ m)) % Lorder) with hR
  have hRlen : R.length = 32 := C.toBytes_length _
  rw [overwrite_of_length_eq (List.replicate 32 0) R (by rw [List.length_replicate, hRlen]),
    overwrite_of_length_eq (List.replicate 32 0) (sk.drop 32)
      (by rw [List.length_replicate, hA]),
    take_app _ _ hRlen]
  have hfin : leVal (sc_reduce (H ((R ++ sk.drop 32) ++ m))) =
      leVal (H ((R ++ sk.drop 32) ++ m)) % Lorder := leVal_sc_reduce _
  rw [sc_muladd, hfin, hnv]

/-- Witness for C4 at the concrete instances (zero 64-byte secret key). -/
theorem signature_matches_spec_witness :
    signature H0 codec0 [] (List.replicate 64 0) =
      signatureSpec H0 codec0 [] (List.replicate 64 0) :=
  signature_matches_spec H0 codec0 [] (List.replicate 64 0) DigestGood_H0 (by decide)

/-- Byte-level content of the exchange clamping as the claim words it: bits 0–2 of the
scalar cleared (byte 0), bit 255 cleared and bit 254 set (byte 31: bit 7 cleared, bit 6
set, bits 0–5 kept), and every other byte of the hash buffer unchanged. -/
def ClampedExchangeSpec (h hc : List Nat) : Prop :=
  hc.length = h.length ∧
  (∀ j, (hc.getD 0 0).testBit j = (decide (3 ≤ j) && (h.getD 0 0).testBit j)) ∧
  (hc.getD 31 0).testBit 6 = true ∧
  (hc.getD 31 0).testBit 7 = false ∧
  (∀ j, j ≠ 6 → j ≠ 7 → (hc.getD 31 0).testBit j = (h.getD 31 0).testBit j) ∧
  (∀ i, i ≠ 0 → i ≠ 31 → hc.getD i 0 = h.getD i 0)

theorem clampX_spec (h : List Nat) (hlen : h.length = 64) (hbytes : ∀ b ∈ h, b < 256) :
    ClampedExchangeSpec h (clampX h) := by
  have h0 : 0 < h.length := by omega
  have h31 : 31 < h.length := by omega
  have hb0 : h.getD 0 0 < 256 := getD_lt_of_bytes h hbytes 0
  have hb31 : h.getD 31 0 < 256 := getD_lt_of_bytes h hbytes 31
  refine ⟨clampX_length h, ?_, ?_, ?_, ?_, ?_⟩
  · intro j
    rw [clampX_getD_zero h h0]
    exact and248_testBit _ hb0 j
  · rw [clampX_getD_31 h h31]
    exact clampByteX_testBit6 _ hb31
  · rw [clampX_getD_31 h h31]
    exact clampByteX_testBit7 _ hb31
  · intro j h6 h7
    rw [clampX_getD_31 h h31]
    exact clampByteX_testBit_other _ hb31 j h6 h7
  · intro i hi0 hi31
    exact clampX_getD_other h i hi0 hi31

/-- C8: `exchange(p, k)` is the Montgomery ladder applied to `h` and `u`, where `h` is
the digest of the private key's low 32 bytes, clamped per the claim's bit description,
and `u` encodes the field element `(1+y)·(1−y)^(p−2)` — the spec's `(1+y)/(1−y)` with
the division realized by the spec's exponentiation-based inversion — for `y` the decoded
Edwards Y-coordinate of the public key. -/
theorem exchange_structure (H : List Nat → List Nat) (X : List Nat → List Nat → List Nat)
    (pk sk : List Nat) (hH : DigestGood H) :
    exchange H X pk sk =
      X (clampX (H (sk.take 32)))
        (fe_to_bytes ((1 + fe_from_bytes pk) * fe_invert (1 - fe_from_bytes pk))) ∧
    ClampedExchangeSpec (H (sk.take 32)) (clampX (H (sk.take 32))) := by
  refine ⟨rfl, clampX_spec _ (hH _).1 (hH _).2⟩

/-- Witness for C8 at the concrete instances. -/
theorem exchange_structure_witness :
    exchange H0 X0 (List.replicate 32 0) (List.replicate 64 0) =
      X0 (clampX (H0 ((List.replicate 64 0).take 32)))
        (fe_to_bytes ((1 + fe_from_bytes (List.replicate 32 0)) *
          fe_invert (1 - fe_from_bytes (List.replicate 32 0)))) ∧
    ClampedExchangeSpec (H0 ((List.replicate 64 0).take 32))
      (clampX (H0 ((List.replicate 64 0).take 32))) :=
  exchange_structure H0 X0 (List.replicate 32 0) (List.replicate 64 0) DigestGood_H0

/-! ### Outcome characterization of `verify` (C5, C6) -/

/-- C5 (amended): `verify` is a total boolean function and returns `true` exactly when
all its checks pass: the S half is below the little-endian value of the stored constant
array `L` (which, due to the byte-reversed constant, is not the group order — see the
recorded code bug for C2/C10), the public key decodes, it is not all-zero, and the
recomputed point encoding equals the signature's R half.  Every failure the code
detects therefore yields `false` — never a panic (the embedding is total). -/
theorem verify_true_iff (H : List Nat → List Nat) (C : PointCodec)
    (m pk sig : List Nat) (hsig : sig.length = 64) (hbytes : ∀ b ∈ sig, b < 256) :
    verify H C m pk sig = true ↔
      (leVal (sig.drop 32) < leVal L ∧
       ∃ a, C.fromBytesNegate pk = some a ∧
         (∃ b ∈ pk, b ≠ 0) ∧
         C.toBytes (double_scalarmult_vartime
           (sc_reduce (H (sig.take 32 ++ pk ++ m))) a (sig.drop 32)) = sig.take 32) := by
  have hdlen : (sig.drop 32).length = 32 := by rw [List.length_drop, hsig]
  have hdbytes : ∀ b ∈ sig.drop 32, b < 256 := fun b hb => hbytes b (List.drop_subset _ _ hb)
  have hiff := check_s_lt_l_iff _ hdlen hdbytes
  simp only [verify]
  cases hchk : check_s_lt_l (sig.drop 32) with
  | true =>
    have hge : leVal L ≤ leVal (sig.drop 32) := hiff.mp hchk
    simp only [if_pos rfl]
    constructor
    · intro hcon
      exact absurd hcon Bool.false_ne_true
    · rintro ⟨h1, _⟩
      omega
  | false =>
    have hlt : leVal (sig.drop 32) < leVal L := by
      rcases lt_or_ge (leVal (sig.drop 32)) (leVal L) with h | h
      · exact h
      · rw [hiff.mpr h] at hchk
        exact absurd hchk (by simp)
    rw [if_neg (by simp)]
    split
    next hdec =>
      simp [hdec]
    next a hdec =>
      rw [hdec]
      by_cases hz : pk.foldl (fun d b => d ||| b) 0 = 0
      · rw [if_pos hz]
        have hall : ∀ b ∈ pk, b = 0 := ((foldl_lor_eq_zero_iff pk 0).mp hz).2
        constructor
        · intro hcon
          exact absurd hcon Bool.false_ne_true
        · rintro ⟨_, a', ha', ⟨b, hb, hbne⟩, _⟩
          exact (hbne (hall b hb)).elim
      · rw [if_neg hz]
        have hex : ∃ b ∈ pk, b ≠ 0 := by
          by_contra hcon
          push_neg at hcon
          exact hz ((foldl_lor_eq_zero_iff pk 0).mpr ⟨rfl, hcon⟩)
        constructor
        · intro heq
          refine ⟨hlt, a, rfl, hex, ?_⟩
          simpa [fixed_time_eq] using heq
        · rintro ⟨_, a', ha', _, hR⟩
          have haa : a' = a := (Option.some_inj.mp ha').symm
          subst haa
          simpa [fixed_time_eq] using hR

/-- Witness for C5 at the concrete instances (all-zero public key and signature: the
key does not decode under `codec0`, so both sides of the equivalence are false). -/
theorem verify_true_iff_witness :
    verify H0 codec0 [] (List.replicate 32 0) (List.replicate 64 0) = true ↔
      (leVal ((List.replicate 64 0).drop 32) < leVal L ∧
       ∃ a, codec0.fromBytesNegate (List.replicate 32 0) = some a ∧
         (∃ b ∈ (List.replicate 32 0), b ≠ 0) ∧
         codec0.toBytes (double_scalarmult_vartime
           (sc_reduce (H0 ((List.replicate 64 0).take 32 ++ List.replicate 32 0 ++ [])))
           a ((List.replicate 64 0).drop 32)) = (List.replicate 64 0).take 32) :=
  verify_true_iff H0 codec0 [] (List.replicate 32 0) (List.replicate 64 0)
    (by decide) (by decide)

/-- C6: with a canonical S, an all-zero public key, or one that fails to decode, makes
`verify` return `false`. -/
theorem verify_rejects_bad_pk (H : List Nat → List Nat) (C : PointCodec)
    (m pk sig : List Nat) (hcanon : leVal (sig.drop 32) < Lorder)
    (hpk : pk = List.replicate 32 0 ∨ C.fromBytesNegate pk = none) :
    verify H C m pk sig = false := by
  simp only [verify]
  cases hchk : check_s_lt_l (sig.drop 32) with
  | true => simp
  | false =>
    rw [if_neg (by simp)]
    rcases hpk with rfl | hdec
    · split
      next => rfl
      next a hdec2 =>
        have hz : (List.replicate 32 0).foldl (fun d b => d ||| b) 0 = 0 := by decide
        rw [if_pos hz]
    · simp [hdec]

/-- Witness for C6 at the concrete instances. -/
theorem verify_rejects_bad_pk_witness :
    verify H0 codec0 [] (List.replicate 32 0) (List.replicate 64 0) = false :=
  verify_rejects_bad_pk H0 codec0 [] (List.replicate 32 0) (List.replicate 64 0)
    (by decide) (Or.inl rfl)

/-! ### Length handling of the public surface (C7) -/

/-- C7 counterexample: calling `to_public` with a 33-byte buffer — a length different
from the specified 64-byte extended-secret size — does not fail fast: it returns a
result (the source has no length assertion and only slices the first 32 bytes). -/
theorem to_public_wrong_length_returns :
    (List.replicate 33 0).length ≠ 64 ∧
    toPublicChecked codec0 (List.replicate 33 0) ≠ none := by decide

/-- C7 (amended): the assert-guarded operations `keypair`, `signature`,
`signature_extended` and `verify` fail fast exactly when the corresponding buffer length
differs from its specified size, while `to_public` and `exchange` check nothing: they
fail fast only when a buffer is too short for the 32-byte reads they perform, and return
a result for any longer buffer. -/
theorem length_check_behaviour (H : List Nat → List Nat)
    (X : List Nat → List Nat → List Nat) (C : PointCodec) :
    (∀ seed, keypairChecked H C seed = none ↔ seed.length ≠ 32) ∧
    (∀ m sk, signatureChecked H C m sk = none ↔ sk.length ≠ 64) ∧
    (∀ m es, signatureExtendedChecked H C m es = none ↔ es.length ≠ 64) ∧
    (∀ m pk sig, verifyChecked H C m pk sig = none ↔
      (pk.length ≠ 32 ∨ sig.length ≠ 64)) ∧
    (∀ es, toPublicChecked C es = none ↔ es.length < 32) ∧
    (∀ pk sk, exchangeChecked H X pk sk = none ↔
      (pk.length < 32 ∨ sk.length < 32)) := by
  refine ⟨?_, ?_, ?_, ?_, ?_, ?_⟩
  · intro seed
    by_cases h : seed.length = 32 <;> simp [keypairChecked, h]
  · intro m sk
    by_cases h : sk.length = 64 <;> simp [signatureChecked, h]
  · intro m es
    by_cases h : es.length = 64 <;> simp [signatureExtendedChecked, h]
  · intro m pk sig
    by_cases h : pk.length = 32 ∧ sig.length = 64
    · simp only [verifyChecked, if_pos h]
      simp [h.1, h.2]
    · simp only [verifyChecked, if_neg h]
      simp only [ne_eq, eq_self_iff_true, true_iff]
      tauto
  · intro es
    by_cases h : 32 ≤ es.length <;> simp [toPublicChecked, h] <;> omega
  · intro pk sk
    by_cases h : 32 ≤ pk.length ∧ 32 ≤ sk.length
    · simp only [exchangeChecked, if_pos h]
      simp
      omega
    · simp only [exchangeChecked, if_neg h]
      simp only [eq_self_iff_true, true_iff]
      omega

/-! ### The byte-reversed order constant (code bug recorded for C2 and C10) -/

/-- The stored array is the group order written big-endian: reversing it and reading it
little-endian gives exactly `Lorder`.  The check, however, reads it little-endian as it
stands. -/
theorem L_reverse_value : leVal L.reverse = Lorder := by decide

/-- C10 (code evaluated at the failing input): on the 32 little-endian bytes of the
group order itself — a value `≥ L`, which the claim requires to be reported `true` —
`check_s_lt_l` returns `false`, because the constant it compares against is
byte-reversed (its little-endian value is about `2^255.9`, not the group order). -/
theorem check_s_lt_l_at_Lorder :
    leVal (natToLE 32 Lorder) = Lorder ∧ check_s_lt_l (natToLE 32 Lorder) = false := by
  decide

/-- Honest signature at the concrete instances (zero seed, empty message). -/
def sigH0 : List Nat := signature H0 codec0 [] (keypair H0 codec0 seed0).1

/-- The same signature with its S half replaced by S + L — a non-canonical scalar the
spec requires `verify` to reject. -/
def sigMall : List Nat := sigH0.take 32 ++ natToLE 32 (leVal (sigH0.drop 32) + Lorder)

/-- C2 (code evaluated at the failing input): `verify` accepts a signature whose S half
has little-endian value `≥ L` (here exactly `L`): the malleability rejection demanded by
the spec does not happen, because the order constant is stored byte-reversed. -/
theorem verify_accepts_noncanonical_S :
    Lorder ≤ leVal (sigMall.drop 32) ∧
    verify H0 codec0 [] (keypair H0 codec0 seed0).2 sigMall = true := by decide

/-- Honest signature at the concrete instances for the one-byte message `[1]`. -/
def sigH1 : List Nat := signature H0 codec0 [1] (keypair H0 codec0 seed0).1

/-- Same S + L malleation of `sigH1`. -/
def sigMall1 : List Nat := sigH1.take 32 ++ natToLE 32 (leVal (sigH1.drop 32) + Lorder)

/-- C5 counterexample: a cryptographic validity failure that does NOT yield `false` —
the claim (as stated) requires a signature with non-canonical S to produce the result
`false`, but `verify` returns `true` on this input. -/
theorem noncanonical_S_not_reported_false :
    Lorder ≤ leVal (sigMall1.drop 32) ∧
    verify H0 codec0 [1] (keypair H0 codec0 seed0).2 sigMall1 = true := by decide

end Ed25519
